import Mathlib

/-!
Verification of the table-extraction and row-normalization pipeline of
`ponylist.py` (the `scrape_ponies` scraper).  The Python functions
`table_to_list`, `process_rows`, `remove_unknown`, `clean_name`,
`write_file`-independent parts of `main`, and the data they act on are
embedded as executable Lean definitions; Python exceptions (IndexError,
UnboundLocalError) are modelled by `Option` results (`none` = the
operation raises).
-/

namespace Ponylist

/-! ## String primitives (models of the Python string operations used) -/

/-- Boolean test that `needle` occurs at the very start of the second list. -/
def leadsWith : List Char → List Char → Bool
  | [], _ => true
  | _ :: _, [] => false
  | a :: as, b :: bs => a == b && leadsWith as bs

/-- Model of Python `needle in hay` on strings: `needle` occurs as a
contiguous substring of `hay` (case-sensitive). -/
def hasSub (needle : List Char) : List Char → Bool
  | [] => needle.isEmpty
  | c :: cs => leadsWith needle (c :: cs) || hasSub needle cs

/-- Python `needle in hay` for strings. -/
def pyIn (needle hay : String) : Bool := hasSub needle.data hay.data

/-- Worker for `pyReplace`: scans left to right, replacing each
non-overlapping occurrence of `o :: os` by `new`.  `fuel` bounds the
number of steps; it is called with `fuel` at least the list length, so
the `0` fallback arm is never reached. -/
def replaceAux (o : Char) (os new : List Char) : Nat → List Char → List Char
  | _, [] => []
  | 0, l => l
  | fuel + 1, c :: cs =>
    if leadsWith (o :: os) (c :: cs) then
      new ++ replaceAux o os new fuel (List.drop os.length cs)
    else
      c :: replaceAux o os new fuel cs

/-- Model of Python `s.replace(old, new)` for non-empty `old`:
left-to-right, non-overlapping replacement of every occurrence. -/
def pyReplace (s old new : String) : String :=
  match old.data with
  | [] => s
  | o :: os => String.mk (replaceAux o os new.data s.data.length s.data)

/-- Strip leading and trailing whitespace from a character list. -/
def pyStripL (l : List Char) : List Char :=
  ((l.dropWhile Char.isWhitespace).reverse.dropWhile Char.isWhitespace).reverse

/-- Model of Python `s.strip()`. -/
def pyStrip (s : String) : String := String.mk (pyStripL s.data)

/-! ## Models of the external `scrapekit` helpers

The `scrapekit` module is not part of this repository's sources; the two
pure string helpers `ponylist.py` uses from it are modelled from the
spec. -/

/-- Worker for `fix_camelcase`: inserts a missing space after each
occurrence of the separator character. -/
def fixCamelAux (sep : Char) : List Char → List Char
  | [] => []
  | [c] => [c]
  | c :: d :: rest =>
    if (c == sep) && !(d == ' ') then
      c :: ' ' :: fixCamelAux sep (d :: rest)
    else
      c :: fixCamelAux sep (d :: rest)

/-- Modelled from the spec: `scrapekit.fix_camelcase` (not under `src/`)
corrects erroneous camel-case word-run-ons around the separator character,
reinserting the expected spacing around the separator.  Modelled as
inserting a missing space after each occurrence of the separator; a string
not containing the separator is left unchanged. -/
def fix_camelcase (s : String) (sep : Char) : String :=
  String.mk (fixCamelAux sep s.data)

/-- Worker for `strip_label`: the remainder after the first occurrence of
a colon followed by a space, or `none` when there is no such occurrence. -/
def dropLabel : List Char → Option (List Char)
  | [] => none
  | ':' :: ' ' :: rest => some rest
  | _ :: cs => dropLabel cs

/-- Modelled from the spec: `scrapekit.strip_label` (not under `src/`)
removes a recognized descriptive-label prefix of the form "Label: " from a
name.  Modelled as dropping everything up to and including the first
": " when one occurs, and leaving the name unchanged otherwise. -/
def strip_label (s : String) : String :=
  match dropLabel s.data with
  | some rest => String.mk rest
  | none => s

/-! ## The row data model and `ponylist.py` functions -/

/-- A row is an ordered sequence of text fields. -/
abbrev Row := List String

/-- `remove_unknown(rows)`: keeps the rows whose name field (field 0) does
not contain the substring "Unnamed".  Python evaluates `r[0]` for every
row, so an empty row raises IndexError, modelled by `none`. -/
def remove_unknown : List Row → Option (List Row)
  | [] => some []
  | [] :: _ => none
  | (n :: rest) :: rs =>
    (remove_unknown rs).map fun out =>
      if pyIn "Unnamed" n then out else (n :: rest) :: out

/-- `clean_name(name)`: camel-case fix around the colon, delete every
"[sic]", replace every '/' by "or", then strip surrounding whitespace. -/
def clean_name (name : String) : String :=
  pyStrip (pyReplace (pyReplace (fix_camelcase name ':') "[sic]" "") "/" "or")

/-- Rewrites field 0 of every row by `f`; an empty row raises IndexError
(`none`), as in the Python loops `r[0] = clean_name(r[0])` and
`r[0] = scrapekit.strip_label(r[0])`. -/
def mapRowsHead (f : String → String) : List Row → Option (List Row)
  | [] => some []
  | [] :: _ => none
  | (n :: rest) :: rs =>
    (mapRowsHead f rs).map fun out => (f n :: rest) :: out

/-- The `names` step `rows = [[r[0]] for r in rows]`: reduces every row to
a single-element row holding field 0; an empty row raises IndexError. -/
def namesOnly : List Row → Option (List Row)
  | [] => some []
  | [] :: _ => none
  | (n :: _) :: rs => (namesOnly rs).map fun out => [n] :: out

/-- The three normalization flags consumed by `process_rows`. -/
structure Args where
  known : Bool
  strip_labels : Bool
  names : Bool
  deriving DecidableEq

/-- `process_rows(rows, args)`: optional `remove_unknown` filter, then
name cleanup on field 0, optional label stripping, optional collapse to
names only.  `none` models an uncaught IndexError. -/
def process_rows (rows : List Row) (args : Args) : Option (List Row) :=
  (if args.known then remove_unknown rows else some rows).bind fun r1 =>
    (mapRowsHead clean_name r1).bind fun r2 =>
      (if args.strip_labels then mapRowsHead strip_label r2 else some r2).bind fun r3 =>
        if args.names then namesOnly r3 else some r3

/-! ## The HTML table model and `table_to_list` -/

/-- An anchor element; `href` is `none` when the `href` attribute is
absent (`a.attrs.get('href', 'None')` then yields the default "None"). -/
structure Anchor where
  href : Option String
  deriving DecidableEq

/-- A table cell: its text content and its first descendant anchor, if
any (`cell.find('a')`). -/
structure Cell where
  text : String
  link : Option Anchor
  deriving DecidableEq

/-- A table row as seen through `findAll`: its header cells (`th`) and
its data cells (`td`). -/
structure TableRow where
  th : List Cell
  td : List Cell
  deriving DecidableEq

/-- A table: its rows in document order (`table.findAll('tr')`). -/
structure Table where
  rows : List TableRow
  deriving DecidableEq

/-- The header row built from the first table row: header-cell texts,
stripped. -/
def header_row (tr : TableRow) : Row :=
  tr.th.map fun c => pyStrip c.text

/-- The body of the `for row in table_rows` loop: a row with no data
cells yields nothing; otherwise the texts of all data cells but the last,
followed by the last cell's hyperlink target when the last cell contains
an anchor (`href`, defaulting to "None" when the attribute is missing) —
and followed by nothing at all when it contains no anchor. -/
def data_row (r : TableRow) : Option Row :=
  match r.td.getLast? with
  | none => none
  | some lastCell =>
    some ((r.td.dropLast.map Cell.text) ++
      (match lastCell.link with
       | some a => [a.href.getD "None"]
       | none => []))

/-- `table_to_list(table)`: the header from row 0 (IndexError — `none` —
when the table has no rows), then one output row per table row that has
data cells. -/
def table_to_list (t : Table) : Option (List Row) :=
  match t.rows with
  | [] => none
  | tr0 :: rest => some (header_row tr0 :: (tr0 :: rest).filterMap data_row)

/-! ## `main`'s URL selection -/

/-- The category-to-URL configuration table `URLS`. -/
def URLS : List (String × String) :=
  [("unicorns", "http://mlp.wikia.com/wiki/List_of_ponies/Unicorn_ponies"),
   ("pegasus", "http://mlp.wikia.com/wiki/List_of_ponies/Pegasus_ponies"),
   ("earthponies", "http://mlp.wikia.com/wiki/List_of_ponies/Earth_ponies"),
   ("crystal", "http://mlp.wikia.com/wiki/List_of_ponies/Crystal_Ponies"),
   ("elders", "http://mlp.wikia.com/wiki/List_of_ponies/Elders"),
   ("foals", "http://mlp.wikia.com/wiki/List_of_ponies/Foals"),
   ("mentioned", "http://mlp.wikia.com/wiki/List_of_ponies/Mentioned_ponies"),
   ("comic", "http://mlp.wikia.com/wiki/List_of_comic_ponies"),
   ("wonderbolts", "http://mlp.wikia.com/wiki/List_of_Wonderbolts"),
   ("alicorns", "http://mlp.wikia.com/wiki/List_of_ponies/Alicorn_ponies"),
   ("prose", "http://mlp.wikia.com/wiki/List_of_prose_ponies"),
   ("other", "http://mlp.wikia.com/wiki/List_of_non-pony_characters")]

/-- The selection of `scraping_urls` in `main` (lines 171-176): for the
"all" type the variable is assigned only when the confirmation is
accepted; when it is declined the variable stays unbound and the
subsequent `get_rows(scraping_urls)` raises UnboundLocalError, modelled
by `none`.  For any other type, the single URL looked up in `URLS`. -/
def select_scraping_urls (typ : String) (confirmed : Bool) : Option (List String) :=
  if typ = "all" then
    if confirmed then some (URLS.map Prod.snd) else none
  else
    (URLS.lookup typ).map fun u => [u]

end Ponylist

namespace Ponylist

/-! ## Helper lemmas about the row-processing functions -/

lemma mapRowsHead_tail_eq (f : String → String) :
    ∀ {l out : List Row}, mapRowsHead f l = some out →
      List.Forall₂ (fun r s => r.tail = s.tail) l out := by
  intro l
  induction l with
  | nil => intro out h; simp [mapRowsHead] at h; subst h; exact List.Forall₂.nil
  | cons r rs ih =>
    intro out h
    rcases r with _ | ⟨n, rest⟩
    · simp [mapRowsHead] at h
    · simp only [mapRowsHead, Option.map_eq_some'] at h
      obtain ⟨out', hout', rfl⟩ := h
      exact List.Forall₂.cons rfl (ih hout')

lemma forall₂_tail_trans :
    ∀ {a b c : List Row}, List.Forall₂ (fun r s => r.tail = s.tail) a b →
      List.Forall₂ (fun r s => r.tail = s.tail) b c →
      List.Forall₂ (fun r s => r.tail = s.tail) a c := by
  intro a b c h1
  induction h1 generalizing c with
  | nil => intro h2; cases h2; exact List.Forall₂.nil
  | cons hr _ ih =>
    intro h2
    cases h2 with
    | cons hs htail => exact List.Forall₂.cons (hr.trans hs) (ih htail)

lemma mapRowsHead_ne_nil (f : String → String) :
    ∀ {l out : List Row}, mapRowsHead f l = some out → ∀ r ∈ out, r ≠ [] := by
  intro l
  induction l with
  | nil => intro out h; simp [mapRowsHead] at h; subst h; simp
  | cons r rs ih =>
    intro out h
    rcases r with _ | ⟨n, rest⟩
    · simp [mapRowsHead] at h
    · simp only [mapRowsHead, Option.map_eq_some'] at h
      obtain ⟨out', hout', rfl⟩ := h
      intro s hs
      rcases List.mem_cons.mp hs with hs | hs
      · subst hs; simp
      · exact ih hout' s hs

lemma namesOnly_eq_of_ne_nil :
    ∀ {l : List Row}, (∀ r ∈ l, r ≠ []) →
      namesOnly l = some (l.map fun r => r.take 1) := by
  intro l
  induction l with
  | nil => intro _; rfl
  | cons r rs ih =>
    intro h
    rcases r with _ | ⟨n, rest⟩
    · exact absurd rfl (h [] (List.mem_cons_self _ _))
    · have := ih fun s hs => h s (List.mem_cons_of_mem _ hs)
      simp [namesOnly, this, List.take]

lemma mapRowsHead_none_of_mem (f : String → String) :
    ∀ {l : List Row}, [] ∈ l → mapRowsHead f l = none := by
  intro l
  induction l with
  | nil => intro h; cases h
  | cons r rs ih =>
    intro hmem
    rcases List.mem_cons.mp hmem with h | h
    · subst h; rfl
    · clear hmem
      rcases r with _ | ⟨n, rest⟩
      · rfl
      · simp [mapRowsHead, ih h]

lemma remove_unknown_none_of_mem :
    ∀ {l : List Row}, [] ∈ l → remove_unknown l = none := by
  intro l
  induction l with
  | nil => intro h; cases h
  | cons r rs ih =>
    intro hmem
    rcases List.mem_cons.mp hmem with h | h
    · subst h; rfl
    · clear hmem
      rcases r with _ | ⟨n, rest⟩
      · rfl
      · simp [remove_unknown, ih h]

lemma remove_unknown_eq_filter :
    ∀ {l : List Row}, (∀ r ∈ l, r ≠ []) →
      remove_unknown l = some (l.filter fun r => !(pyIn "Unnamed" (r.headD ""))) := by
  intro l
  induction l with
  | nil => intro _; rfl
  | cons r rs ih =>
    intro h
    rcases r with _ | ⟨n, rest⟩
    · exact absurd rfl (h [] (List.mem_cons_self _ _))
    · have := ih fun s hs => h s (List.mem_cons_of_mem _ hs)
      by_cases hu : pyIn "Unnamed" n
      · simp [remove_unknown, this, List.filter, hu]
      · simp [remove_unknown, this, List.filter, hu]

lemma data_row_eq_none_iff (r : TableRow) : data_row r = none ↔ r.td = [] := by
  rcases h : r.td with _ | ⟨c, cs⟩
  · simp [data_row, h]
  · simp only [data_row, h]
    constructor
    · intro hcontra
      rw [List.getLast?_eq_getLast _ (by simp)] at hcontra
      simp at hcontra
    · intro hcontra; cases hcontra

lemma length_filterMap_data_row :
    ∀ (l : List TableRow),
      (l.filterMap data_row).length = l.countP fun r => !r.td.isEmpty := by
  intro l
  induction l with
  | nil => rfl
  | cons r rs ih =>
    rw [List.filterMap_cons, List.countP_cons]
    by_cases h : r.td = []
    · have : data_row r = none := (data_row_eq_none_iff r).mpr h
      simp [this, ih, h]
    · obtain ⟨row, hrow⟩ : ∃ row, data_row r = some row := by
        cases hd : data_row r with
        | none => exact absurd ((data_row_eq_none_iff r).mp hd) h
        | some row => exact ⟨row, rfl⟩
      simp [hrow, ih, List.isEmpty_iff, h]

end Ponylist

namespace Ponylist

/-! ## Helper lemmas about the string primitives -/

lemma replaceAux_of_hasSub_false (o : Char) (os new : List Char) :
    ∀ (fuel : Nat) (l : List Char), l.length ≤ fuel →
      hasSub (o :: os) l = false → replaceAux o os new fuel l = l := by
  intro fuel
  induction fuel with
  | zero =>
    intro l hlen _
    rcases l with _ | ⟨c, cs⟩
    · rfl
    · simp at hlen
  | succ fuel ih =>
    intro l hlen hsub
    rcases l with _ | ⟨c, cs⟩
    · rfl
    · simp only [hasSub, Bool.or_eq_false_iff] at hsub
      obtain ⟨hlead, htail⟩ := hsub
      simp only [replaceAux, hlead, if_neg]
      simp only [List.length_cons, Nat.succ_le_succ_iff] at hlen
      rw [ih cs hlen htail]
      simp [hlead]

lemma hasSub_single_false (c : Char) :
    ∀ {l : List Char}, c ∉ l → hasSub [c] l = false := by
  intro l
  induction l with
  | nil => intro _; rfl
  | cons b bs ih =>
    intro h
    have hb : c ≠ b := fun hcb => h (hcb ▸ List.mem_cons_self _ _)
    have hbs : c ∉ bs := fun hm => h (List.mem_cons_of_mem _ hm)
    simp [hasSub, leadsWith, ih hbs, hb]

lemma not_mem_replaceAux_single (o : Char) (new : List Char) (hnew : o ∉ new) :
    ∀ (fuel : Nat) (l : List Char), l.length ≤ fuel →
      o ∉ replaceAux o [] new fuel l := by
  intro fuel
  induction fuel with
  | zero =>
    intro l hlen
    rcases l with _ | ⟨c, cs⟩
    · simp [replaceAux]
    · simp at hlen
  | succ fuel ih =>
    intro l hlen
    rcases l with _ | ⟨c, cs⟩
    · simp [replaceAux]
    · simp only [List.length_cons, Nat.succ_le_succ_iff] at hlen
      by_cases hc : o = c
      · have : leadsWith [o] (c :: cs) = true := by simp [leadsWith, hc]
        simp only [replaceAux, this, if_pos, List.length_nil, List.drop_zero]
        intro hmem
        rcases List.mem_append.mp hmem with hmem | hmem
        · exact hnew hmem
        · exact ih cs hlen hmem
      · have : leadsWith [o] (c :: cs) = false := by
          simp [leadsWith]
          exact fun h => absurd h hc
        simp only [replaceAux, this, if_neg, Bool.false_eq_true, not_false_iff]
        intro hmem
        rcases List.mem_cons.mp hmem with hmem | hmem
        · exact hc hmem
        · exact ih cs hlen hmem

lemma fixCamelAux_of_not_mem (sep : Char) :
    ∀ {l : List Char}, sep ∉ l → fixCamelAux sep l = l := by
  intro l
  induction l with
  | nil => intro _; rfl
  | cons c cs ih =>
    intro h
    have hc : sep ≠ c := fun hcc => h (hcc ▸ List.mem_cons_self _ _)
    have hcs : sep ∉ cs := fun hm => h (List.mem_cons_of_mem _ hm)
    rcases cs with _ | ⟨d, rest⟩
    · rfl
    · have hcd : (c == sep) = false := by
        simp
        exact fun hcc => hc hcc.symm
      simp [fixCamelAux, hcd, ih hcs]

lemma mem_of_mem_dropWhile' (p : Char → Bool) :
    ∀ {l : List Char} {x : Char}, x ∈ List.dropWhile p l → x ∈ l := by
  intro l
  induction l with
  | nil => intro x h; simp [List.dropWhile] at h
  | cons c cs ih =>
    intro x h
    by_cases hp : p c
    · rw [List.dropWhile_cons_of_pos hp] at h
      exact List.mem_cons_of_mem _ (ih h)
    · rw [List.dropWhile_cons_of_neg hp] at h
      exact h

lemma mem_of_mem_pyStripL {l : List Char} {x : Char} (h : x ∈ pyStripL l) : x ∈ l := by
  unfold pyStripL at h
  rw [List.mem_reverse] at h
  have h1 := mem_of_mem_dropWhile' _ h
  rw [List.mem_reverse] at h1
  exact mem_of_mem_dropWhile' _ h1

lemma dropWhile_head?_false (p : Char → Bool) :
    ∀ {l : List Char} {c : Char},
      (List.dropWhile p l).head? = some c → p c = false := by
  intro l
  induction l with
  | nil => intro c h; simp [List.dropWhile] at h
  | cons b bs ih =>
    intro c h
    by_cases hp : p b
    · rw [List.dropWhile_cons_of_pos hp] at h
      exact ih h
    · rw [List.dropWhile_cons_of_neg hp] at h
      simp at h
      subst h
      simpa using hp

lemma dropWhile_self_of_head? (p : Char → Bool) {l : List Char}
    (h : ∀ c, l.head? = some c → p c = false) : List.dropWhile p l = l := by
  rcases l with _ | ⟨c, cs⟩
  · rfl
  · exact List.dropWhile_cons_of_neg (by simpa using h c rfl)

lemma exists_append_dropWhile (p : Char → Bool) :
    ∀ (l : List Char), ∃ t, l = t ++ List.dropWhile p l := by
  intro l
  induction l with
  | nil => exact ⟨[], rfl⟩
  | cons c cs ih =>
    by_cases hp : p c
    · obtain ⟨t, ht⟩ := ih
      exact ⟨c :: t, by rw [List.dropWhile_cons_of_pos hp, List.cons_append, ← ht]⟩
    · exact ⟨[], by rw [List.dropWhile_cons_of_neg hp, List.nil_append]⟩

lemma head?_append_left' {u v : List Char} (h : u ≠ []) :
    (u ++ v).head? = u.head? := by
  rcases u with _ | ⟨c, cs⟩
  · exact absurd rfl h
  · rfl

lemma pyStripL_head?_false {l : List Char} {c : Char}
    (h : (pyStripL l).head? = some c) : Char.isWhitespace c = false := by
  unfold pyStripL at h
  obtain ⟨t, ht⟩ :=
    exists_append_dropWhile Char.isWhitespace (List.dropWhile Char.isWhitespace l).reverse
  generalize hB :
    List.dropWhile Char.isWhitespace (List.dropWhile Char.isWhitespace l).reverse = B at h ht
  have hBne : B.reverse ≠ [] := by
    intro hnil
    rw [hnil] at h
    simp at h
  have hArev : List.dropWhile Char.isWhitespace l = B.reverse ++ t.reverse := by
    have := congrArg List.reverse ht
    simpa using this
  have hAhead : (List.dropWhile Char.isWhitespace l).head? = some c := by
    rw [hArev, head?_append_left' hBne, h]
  exact dropWhile_head?_false _ hAhead

lemma pyStripL_left_trimmed (l : List Char) :
    List.dropWhile Char.isWhitespace (pyStripL l) = pyStripL l :=
  dropWhile_self_of_head? _ fun _ h => pyStripL_head?_false h

lemma pyStripL_right_trimmed (l : List Char) :
    List.dropWhile Char.isWhitespace (pyStripL l).reverse = (pyStripL l).reverse := by
  unfold pyStripL
  rw [List.reverse_reverse]
  apply dropWhile_self_of_head?
  intro c h
  exact dropWhile_head?_false _ h

lemma pyStripL_id {l : List Char}
    (h1 : List.dropWhile Char.isWhitespace l = l)
    (h2 : List.dropWhile Char.isWhitespace l.reverse = l.reverse) :
    pyStripL l = l := by
  unfold pyStripL
  rw [h1, h2, List.reverse_reverse]

lemma mk_data (s : String) : String.mk s.data = s := rfl

lemma pyReplace_sic (s : String) :
    pyReplace s "[sic]" "" =
      String.mk (replaceAux '[' ['s', 'i', 'c', ']'] [] s.data.length s.data) := rfl

lemma pyReplace_slash (s : String) :
    pyReplace s "/" "or" =
      String.mk (replaceAux '/' [] ['o', 'r'] s.data.length s.data) := rfl

end Ponylist

namespace Ponylist

/-! ## Structural lemmas about `process_rows` -/

lemma process_rows_def (rows : List Row) (k s n : Bool) :
    process_rows rows ⟨k, s, n⟩ =
      (if k then remove_unknown rows else some rows).bind fun r1 =>
        (mapRowsHead clean_name r1).bind fun r2 =>
          (if s then mapRowsHead strip_label r2 else some r2).bind fun r3 =>
            if n then namesOnly r3 else some r3 := rfl

lemma process_rows_destruct {rows out : List Row} {k s n : Bool}
    (h : process_rows rows ⟨k, s, n⟩ = some out) :
    ∃ r1 r2 r3,
      (if k then remove_unknown rows else some rows) = some r1 ∧
      mapRowsHead clean_name r1 = some r2 ∧
      (if s then mapRowsHead strip_label r2 else some r2) = some r3 ∧
      (if n then namesOnly r3 else some r3) = some out := by
  rw [process_rows_def, Option.bind_eq_some] at h
  obtain ⟨r1, h1, h⟩ := h
  rw [Option.bind_eq_some] at h
  obtain ⟨r2, h2, h⟩ := h
  rw [Option.bind_eq_some] at h
  obtain ⟨r3, h3, h⟩ := h
  exact ⟨r1, r2, r3, h1, h2, h3, h⟩

end Ponylist

namespace Ponylist

/-! ## Claim theorems -/

/-- Claim C1, counterexample: a data row whose two data cells contain no
anchor.  `table_to_list` emits that row as `["a"]` — one field, the text
of the first cell only — so no "no link" sentinel is appended and the row
does not gain a link field. -/
theorem C1_counterexample :
    data_row ⟨[], [⟨"a", none⟩, ⟨"b", none⟩]⟩ = some ["a"] ∧
    (["a"] : Row).length = 1 ∧
    table_to_list ⟨[⟨[], [⟨"a", none⟩, ⟨"b", none⟩]⟩]⟩ = some [[], ["a"]] := by
  decide

/-- Claim C1 as amended: when the last data cell of a row contains no
anchor element, `table_to_list` appends no link field at all — the
extracted row is exactly the texts of all data cells but the last.  (The
"None" sentinel is produced only when an anchor is present but lacks an
`href` attribute.)  Missing links still never raise an error. -/
theorem C1_no_anchor_no_link_field (r : TableRow) (c : Cell)
    (hc : r.td.getLast? = some c) (hl : c.link = none) :
    data_row r = some (r.td.dropLast.map Cell.text) := by
  simp [data_row, hc, hl]

/-- Witness for C1: the amended statement evaluated on a concrete row. -/
theorem C1_no_anchor_no_link_field_witness :
    data_row ⟨[], [⟨"a", none⟩, ⟨"b", none⟩]⟩ =
      some ((([⟨"a", none⟩, ⟨"b", none⟩] : List Cell).dropLast).map Cell.text) :=
  C1_no_anchor_no_link_field ⟨[], [⟨"a", none⟩, ⟨"b", none⟩]⟩ ⟨"b", none⟩ (by decide) rfl

/-- Claim C2: when the "all" category is selected and the confirmation is
declined, `main` never assigns `scraping_urls`, so the unconditional
`get_rows(scraping_urls)` call raises UnboundLocalError (modelled by
`none`) — the run is not a clean zero-row termination. -/
theorem C2_declined_all_is_unbound :
    select_scraping_urls "all" false = none := by decide

/-- Claim C3, counterexample: a table with two data rows of two data
cells each, where only the first row's last cell holds an anchor.  The
extracted rows have field counts 2 and 1, so the field count is not
invariant across data rows of the same table. -/
theorem C3_counterexample :
    table_to_list ⟨[⟨[], [⟨"a", none⟩, ⟨"b", some ⟨some "L"⟩⟩]⟩,
                    ⟨[], [⟨"c", none⟩, ⟨"d", none⟩]⟩]⟩ =
      some [[], ["a", "L"], ["c"]] ∧
    (["a", "L"] : Row).length ≠ (["c"] : Row).length := by
  decide

/-- Claim C3 as amended: an extracted data row's field count equals the
number of data cells when the last cell contains an anchor, and the
number of data cells minus one when it does not — so the count can vary
between data rows of the same table. -/
theorem C3_field_count (r : TableRow) (row : Row) (h : data_row r = some row) :
    row.length =
      if ((r.td.getLast?).bind Cell.link).isSome then r.td.length
      else r.td.length - 1 := by
  rcases hlast : r.td.getLast? with _ | c
  · rw [data_row, hlast] at h
    cases h
  · have htd : r.td ≠ [] := by
      intro hnil
      rw [hnil] at hlast
      cases hlast
    have hpos : 0 < r.td.length := List.length_pos.mpr htd
    simp only [data_row, hlast] at h
    rcases hlink : c.link with _ | a
    · simp only [hlink, List.append_nil, Option.some_inj] at h
      subst h
      simp [hlast, hlink, List.length_dropLast]
    · simp only [hlink, Option.some_inj] at h
      subst h
      simp only [hlast, hlink, Option.some_bind, Option.isSome_some, if_pos,
        List.length_append, List.length_map, List.length_dropLast, List.length_cons,
        List.length_nil]
      omega

/-- Witness for C3's amended statement on a concrete row with a link. -/
theorem C3_field_count_witness :
    (["a", "L"] : Row).length =
      if ((([⟨"a", none⟩, ⟨"b", some ⟨some "L"⟩⟩] : List Cell).getLast?).bind
            Cell.link).isSome
      then ([⟨"a", none⟩, ⟨"b", some ⟨some "L"⟩⟩] : List Cell).length
      else ([⟨"a", none⟩, ⟨"b", some ⟨some "L"⟩⟩] : List Cell).length - 1 :=
  C3_field_count ⟨[], [⟨"a", none⟩, ⟨"b", some ⟨some "L"⟩⟩]⟩ ["a", "L"] (by decide)

/-- Claim C4: for a table whose first row is a header row (no data
cells), `table_to_list` returns the stripped header first followed by one
row per data-bearing table row, so with N data-bearing rows it returns
exactly N+1 rows; rows without data cells contribute nothing to the
output or to the count. -/
theorem C4_extract_shape (t : Table) (tr0 : TableRow) (rest : List TableRow)
    (hrows : t.rows = tr0 :: rest) (htd : tr0.td = []) :
    table_to_list t = some (header_row tr0 :: rest.filterMap data_row) ∧
    (header_row tr0 :: rest.filterMap data_row).length =
      rest.countP (fun r => !r.td.isEmpty) + 1 := by
  have h0 : data_row tr0 = none := (data_row_eq_none_iff tr0).mpr htd
  constructor
  · rw [table_to_list, hrows]
    simp [List.filterMap_cons, h0]
  · simp [length_filterMap_data_row, Nat.add_comm]

/-- Witness for C4 on a table with a header row, one data-bearing row and
one stray empty row. -/
theorem C4_extract_shape_witness :
    table_to_list ⟨[⟨[⟨"Name", none⟩], []⟩, ⟨[], [⟨"x", none⟩]⟩, ⟨[], []⟩]⟩ =
      some (header_row ⟨[⟨"Name", none⟩], []⟩ ::
        ([⟨[], [⟨"x", none⟩]⟩, ⟨[], []⟩] : List TableRow).filterMap data_row) ∧
    (header_row ⟨[⟨"Name", none⟩], []⟩ ::
        ([⟨[], [⟨"x", none⟩]⟩, ⟨[], []⟩] : List TableRow).filterMap data_row).length =
      ([⟨[], [⟨"x", none⟩]⟩, ⟨[], []⟩] : List TableRow).countP
        (fun r => !r.td.isEmpty) + 1 :=
  C4_extract_shape ⟨[⟨[⟨"Name", none⟩], []⟩, ⟨[], [⟨"x", none⟩]⟩, ⟨[], []⟩]⟩
    ⟨[⟨"Name", none⟩], []⟩ [⟨[], [⟨"x", none⟩]⟩, ⟨[], []⟩] rfl rfl

/-- Claim C5: with `known_only` set, a row survives `remove_unknown`
exactly when its name field does not contain the substring "Unnamed"
(case-sensitive), and `process_rows` applies this filter to the full,
un-cleaned row set before any name cleanup. -/
theorem C5_known_filter (rows : List Row) (s n : Bool)
    (hne : ∀ r ∈ rows, r ≠ []) :
    remove_unknown rows =
      some (rows.filter fun r => !(pyIn "Unnamed" (r.headD ""))) ∧
    process_rows rows ⟨true, s, n⟩ =
      (remove_unknown rows).bind fun kept => process_rows kept ⟨false, s, n⟩ := by
  refine ⟨remove_unknown_eq_filter hne, ?_⟩
  rcases hr : remove_unknown rows with _ | kept
  · rw [process_rows_def, if_pos rfl, hr]
    rfl
  · have lhs : process_rows rows ⟨true, s, n⟩ = process_rows kept ⟨false, s, n⟩ := by
      rw [process_rows_def, if_pos rfl, hr, Option.some_bind, process_rows_def,
        if_neg (by simp), Option.some_bind]
    simp only [Option.some_bind]
    exact lhs

/-- Witness for C5 on a concrete two-row input. -/
theorem C5_known_filter_witness :
    remove_unknown [["Unnamed Pony #3"], ["Named Pony"]] =
      some (([["Unnamed Pony #3"], ["Named Pony"]] : List Row).filter
        fun r => !(pyIn "Unnamed" (r.headD ""))) ∧
    process_rows [["Unnamed Pony #3"], ["Named Pony"]] ⟨true, false, false⟩ =
      (remove_unknown [["Unnamed Pony #3"], ["Named Pony"]]).bind
        fun kept => process_rows kept ⟨false, false, false⟩ :=
  C5_known_filter [["Unnamed Pony #3"], ["Named Pony"]] false false (by decide)

/-- Claim C6: `process_rows` is an I/O-free function of its inputs, and
when `names_only` is not set every surviving row keeps every field other
than field 0 unchanged: the output rows are in one-to-one order-preserving
correspondence with the filtered input rows, with equal tails. -/
theorem C6_tail_frame (k s : Bool) (rows kept out : List Row)
    (hk : (if k then remove_unknown rows else some rows) = some kept)
    (h : process_rows rows ⟨k, s, false⟩ = some out) :
    List.Forall₂ (fun r r' => r.tail = r'.tail) kept out := by
  obtain ⟨r1, r2, r3, h1, h2, h3, h4⟩ := process_rows_destruct h
  rw [hk] at h1
  cases h1
  have t1 := mapRowsHead_tail_eq clean_name h2
  have t2 : List.Forall₂ (fun r r' => r.tail = r'.tail) r2 r3 := by
    rcases s with _ | _
    · have heq : r2 = r3 := by simpa using h3
      subst heq
      exact (List.forall₂_same).mpr fun x _ => rfl
    · rw [if_pos rfl] at h3
      exact mapRowsHead_tail_eq strip_label h3
  have t3 : r3 = out := by
    simpa using h4
  subst t3
  exact forall₂_tail_trans t1 t2

/-- Witness for C6 on a concrete filtered input. -/
theorem C6_tail_frame_witness :
    List.Forall₂ (fun r r' => r.tail = r'.tail)
      [["Named Pony", "x", "y"]] [["Named Pony", "x", "y"]] :=
  C6_tail_frame true false [["Unnamed P", "u"], ["Named Pony", "x", "y"]]
    [["Named Pony", "x", "y"]] [["Named Pony", "x", "y"]] (by decide) (by decide)

/-- Claim C7: `clean_name` replaces every '/' by the literal "or" with no
surrounding spaces (so no '/' survives and "Big/Small" becomes
"BigorSmall"), deletes every occurrence of "[sic]", and trims leading and
trailing whitespace from the final result. -/
theorem C7_clean_name_ops (n : String) :
    '/' ∉ (clean_name n).data ∧
    List.dropWhile Char.isWhitespace (clean_name n).data = (clean_name n).data ∧
    List.dropWhile Char.isWhitespace (clean_name n).data.reverse =
      (clean_name n).data.reverse ∧
    clean_name "Big/Small" = "BigorSmall" ∧
    clean_name " Surprize [sic]" = "Surprize" ∧
    clean_name "a[sic]b[sic] c " = "ab c" := by
  refine ⟨?_, ?_, ?_, by decide, by decide, by decide⟩
  · intro hmem
    have hm := mem_of_mem_pyStripL hmem
    rw [pyReplace_slash] at hm
    exact not_mem_replaceAux_single '/' ['o', 'r'] (by decide) _ _ (Nat.le_refl _) hm
  · exact pyStripL_left_trimmed _
  · exact pyStripL_right_trimmed _

/-- Claim C9, counterexample: `clean_name` is not idempotent on every
name.  Deleting "[sic]" from "[si[sic]c]" creates a fresh "[sic]", which
a second cleaning pass deletes. -/
theorem C9_counterexample :
    clean_name (clean_name "[si[sic]c]") ≠ clean_name "[si[sic]c]" := by
  decide

/-- Claim C9 as amended: on already-clean input — no colon (so the
camel-case fix has nothing to do), no "[sic]" occurrence, no '/', and no
leading or trailing whitespace — `clean_name` returns its input
unchanged, and is therefore idempotent on such names; full idempotence
for every name fails (see the counterexample). -/
theorem C9_idempotent_on_clean (n : String)
    (hc : ':' ∉ n.data)
    (hsic : hasSub ("[sic]".data) n.data = false)
    (hsl : '/' ∉ n.data)
    (hw1 : List.dropWhile Char.isWhitespace n.data = n.data)
    (hw2 : List.dropWhile Char.isWhitespace n.data.reverse = n.data.reverse) :
    clean_name n = n ∧ clean_name (clean_name n) = clean_name n := by
  have hfix : fix_camelcase n ':' = n := by
    rw [fix_camelcase, fixCamelAux_of_not_mem ':' hc, mk_data]
  have hsic' : pyReplace n "[sic]" "" = n := by
    rw [pyReplace_sic,
      replaceAux_of_hasSub_false '[' ['s', 'i', 'c', ']'] [] _ _ (Nat.le_refl _) hsic,
      mk_data]
  have hslash : pyReplace n "/" "or" = n := by
    rw [pyReplace_slash,
      replaceAux_of_hasSub_false '/' [] ['o', 'r'] _ _ (Nat.le_refl _)
        (hasSub_single_false '/' hsl),
      mk_data]
  have hstrip : pyStrip n = n := by
    rw [pyStrip, pyStripL_id hw1 hw2, mk_data]
  have hmain : clean_name n = n := by
    unfold clean_name
    rw [hfix, hsic', hslash, hstrip]
  exact ⟨hmain, by rw [hmain, hmain]⟩

/-- Witness for C9's amended statement on the spec's example name. -/
theorem C9_idempotent_on_clean_witness :
    clean_name "Sunshine Smiles" = "Sunshine Smiles" ∧
    clean_name (clean_name "Sunshine Smiles") = clean_name "Sunshine Smiles" :=
  C9_idempotent_on_clean "Sunshine Smiles" (by decide) (by decide) (by decide)
    (by decide) (by decide)

/-- Claim C8: with `names_only` set, `process_rows` reduces every row of
the sequence — header rows included, since none are distinguished — to
the single-element row holding its first field: its output is exactly the
`names_only`-free output with every row truncated to its first field. -/
theorem C8_names_only (k s : Bool) (rows out : List Row)
    (h : process_rows rows ⟨k, s, false⟩ = some out) :
    process_rows rows ⟨k, s, true⟩ = some (out.map fun r => r.take 1) := by
  obtain ⟨r1, r2, r3, h1, h2, h3, h4⟩ := process_rows_destruct h
  have hout : r3 = out := by simpa using h4
  subst hout
  have hne : ∀ r ∈ r3, r ≠ [] := by
    rcases s with _ | _
    · have heq : r2 = r3 := by simpa using h3
      subst heq
      exact mapRowsHead_ne_nil clean_name h2
    · rw [if_pos rfl] at h3
      exact mapRowsHead_ne_nil strip_label h3
  rw [process_rows_def, h1, Option.some_bind, h2, Option.some_bind, h3,
    Option.some_bind, if_pos rfl]
  exact namesOnly_eq_of_ne_nil hne

/-- Witness for C8 on a concrete input whose first row plays the header
role. -/
theorem C8_names_only_witness :
    process_rows [["Name", "Kind", "Group"], ["A", "x"]] ⟨false, false, true⟩ =
      some (([["Name", "Kind", "Group"], ["A", "x"]] : List Row).map
        fun r => r.take 1) :=
  C8_names_only false false [["Name", "Kind", "Group"], ["A", "x"]]
    [["Name", "Kind", "Group"], ["A", "x"]] (by decide)

/-- Claim C10: `process_rows` and `remove_unknown` index field 0 of every
row unconditionally, so any input containing an empty row makes them fail
with an IndexError (modelled by `none`) instead of returning a result —
whatever the option flags. -/
theorem C10_empty_row_errors (args : Args) (rows : List Row) (h : [] ∈ rows) :
    process_rows rows args = none ∧ remove_unknown rows = none := by
  refine ⟨?_, remove_unknown_none_of_mem h⟩
  rcases args with ⟨k, s, n⟩
  rcases k with _ | _
  · rw [process_rows_def, if_neg (by simp), Option.some_bind,
      mapRowsHead_none_of_mem clean_name h]
    rfl
  · rw [process_rows_def, if_pos rfl, remove_unknown_none_of_mem h]
    rfl

/-- Witness for C10: an empty header row (as extracted from a table whose
first row has no header cells) makes `process_rows` raise. -/
theorem C10_empty_row_errors_witness :
    process_rows [[], ["A", "x"]] ⟨false, false, false⟩ = none ∧
    remove_unknown [[], ["A", "x"]] = none :=
  C10_empty_row_errors ⟨false, false, false⟩ [[], ["A", "x"]] (by decide)

end Ponylist
